import Mathlib

/-!
Verification development for the Aize runtime memory manager
(scope-synchronized reclamation: Ledger, Depth Counter, Collector)
and the builtin List container, as implemented in the C sources
(aize_builtins.c / aize_common.h).

The C runtime is embedded shallowly:
- heap cells are indexed by natural numbers (`Nat` pointers); the model
  allocator never reuses an address, and `free` marks the cell dead while
  keeping the last written header fields (the C allocator keeps the bytes);
- the global `aize_mem_depth` (a `uint32_t`) is a `Nat`; the discipline
  studied here keeps it far below `2 ^ 32`, and the only decrement in the
  code (`aize_mem_exit`) happens at depth at least 2 under the balanced
  scope discipline, where `Nat` subtraction agrees with `uint32_t`;
- the Ledger dynamic array `aize_mem_bound` has two models.  The main
  element-level model (a `List Nat` of registered pointers plus the
  `capacity` field) is exact for the grow path, whose realloc multiplies
  by `sizeof` and preserves all entries, but idealizes the shrink path:
  the C shrink realloc passes `capacity / SHRINK_FACTOR` BYTES, omitting
  the element size, so once the array has grown to 512 slots a shrink
  truncates the block below the surviving entries.  The element-level
  model implements the specification's binding rule that shrinking never
  discards live entries; a second, byte-level model of the same struct
  (`AizeArrayList` below) is faithful to the missing `sizeof` and is used
  to demonstrate the resulting entry loss and out-of-bounds re-append;
- the builtin `AizeList` container is modelled at the byte level for its
  backing buffer, because its grow path passes a byte count to `realloc`
  that does not include the element size.
-/

/-- Aize object header, `struct AizeBase` from aize_common.h: allocation
depth and reference count.  The extra `alive` flag records whether
`free` has been called on the block; the C heap keeps the header bytes
after `free`, and the model likewise keeps the last field values. -/
structure AizeBase where
  depth : Nat
  ref_count : Nat
  alive : Bool
deriving DecidableEq, Repr

/-- Heap read at address `p`.  Reading outside the allocated cells yields
a dead header with zero fields (the theorems below only read addresses
their hypotheses show to be allocated). -/
def hGet : List AizeBase → Nat → AizeBase
  | [], _ => { depth := 0, ref_count := 0, alive := false }
  | b :: _, 0 => b
  | _ :: t, n + 1 => hGet t n

/-- Heap write at address `p` (no-op outside the allocated cells). -/
def hSet : List AizeBase → Nat → AizeBase → List AizeBase
  | [], _, _ => []
  | _ :: t, 0, x => x :: t
  | b :: t, n + 1, x => b :: hSet t n x

/-- Global state of the memory runtime: the Depth Counter
`aize_mem_depth`, the Ledger `aize_mem_bound` (entry list plus the
`capacity` field of the backing array), and the heap. -/
structure MemState where
  aize_mem_depth : Nat
  bound : List Nat
  boundCapacity : Nat
  heap : List AizeBase
deriving DecidableEq, Repr

/-- Depth field of the object at address `p`. -/
def depthAt (s : MemState) (p : Nat) : Nat := (hGet s.heap p).depth

/-- Reference count of the object at address `p`. -/
def rcAt (s : MemState) (p : Nat) : Nat := (hGet s.heap p).ref_count

/-- State produced by the static initializers: `aize_mem_depth = 1`,
`aize_mem_bound = {0, 0, 0}`, nothing allocated. -/
def initialMemState : MemState :=
  { aize_mem_depth := 1, bound := [], boundCapacity := 0, heap := [] }

/-- Translation of `aize_mem_init`: the Ledger array is replaced by a
fresh zeroed block of `START_SIZE = 256` slots and `capacity` is set to
256; `len` and the Depth Counter are untouched (so the existing `len`
entries are read as zeroed slots afterwards, which for the documented
call-once-at-start discipline means the empty Ledger stays empty). -/
def aize_mem_init (s : MemState) : MemState :=
  { s with bound := List.replicate s.bound.length 0, boundCapacity := 256 }

/-- Translation of `aize_mem_enter`: increment the Depth Counter. -/
def aize_mem_enter (s : MemState) : MemState :=
  { s with aize_mem_depth := s.aize_mem_depth + 1 }

/-- Translation of `aize_mem_add_mem`: grow the backing array (doubling
`capacity`) when full, then append the pointer at index `len` and bump
`len`.  The grow realloc passes `capacity * SCALE_FACTOR *
sizeof(AizeBase**)` bytes, so all existing entries are preserved. -/
def aize_mem_add_mem (p : Nat) (s : MemState) : MemState :=
  let s1 := if s.bound.length = s.boundCapacity then
      { s with boundCapacity := s.boundCapacity * 2 }
    else s
  { s1 with bound := s1.bound ++ [p] }

/-- Element-level translation of `aize_mem_pop_mem`: drop the last `num`
entries, then halve `capacity` when it is at least `SHRINK_FACTOR *
START_SIZE = 512` and the new `len` is below `capacity / SHRINK_WHEN =
capacity / 4`.  This model keeps every remaining entry, which is the
specification's binding behavior (shrinking never discards live
entries); the C realloc at the shrink passes `capacity / SHRINK_FACTOR`
bytes with the element size omitted, truncating the block to
`capacity / 16` slots - see `aize_mem_pop_mem_bytes` for the
byte-faithful shrink and the theorems demonstrating the divergence. -/
def aize_mem_pop_mem (num : Nat) (s : MemState) : MemState :=
  let s1 := { s with bound := s.bound.take (s.bound.length - num) }
  if 2 * 256 ≤ s1.boundCapacity ∧ s1.bound.length < s1.boundCapacity / 4 then
    { s1 with boundCapacity := s1.boundCapacity / 2 }
  else s1

/-- Outcome of `aize_mem_malloc`.  The source performs
`AizeBase* mem = malloc(bytes); mem->depth = aize_mem_depth; ...` with no
check of the `malloc` result: when the system allocator fails, the store
`mem->depth = ...` writes through a null pointer (`nullWrite`).  The
`abortRaised` outcome stands for a deliberate process abort as described
by the specification; no statement of this function produces it, which
is what the error-handling claim is checked against. -/
inductive AllocResult where
  | returned (s : MemState) (p : Nat)
  | nullWrite
  | abortRaised
deriving DecidableEq, Repr

/-- Translation of `aize_mem_malloc`.  `sysMem` tells whether the system
allocator can satisfy the request; `rc0` is the content the uninitialized
`ref_count` field of the fresh block happens to hold (the source never
initializes it).  On success the fresh header is stamped with the current
depth and registered in the Ledger. -/
def aize_mem_malloc (sysMem : Bool) (rc0 : Nat) (s : MemState) : AllocResult :=
  if sysMem then
    let p := s.heap.length
    let s1 := { s with
      heap := s.heap ++ [{ depth := s.aize_mem_depth, ref_count := rc0, alive := true }] }
    AllocResult.returned (aize_mem_add_mem p s1) p
  else AllocResult.nullWrite

/-- Continuation condition of the collect loop: the scan goes on while
`obj->depth >= aize_mem_depth` (first branch) or `obj->depth == 0`
(second branch); otherwise it breaks. -/
def contScan (s : MemState) (p : Nat) : Bool :=
  decide (s.aize_mem_depth ≤ depthAt s p ∨ depthAt s p = 0)

/-- Free condition inside the collect loop: `obj->depth >=
aize_mem_depth` and `obj->ref_count == 0` (the inner else branch calls
`free(obj)`); a nonzero count leaves the object floating. -/
def freeHere (s : MemState) (p : Nat) : Bool :=
  decide (s.aize_mem_depth ≤ depthAt s p ∧ rcAt s p = 0)

/-- Returned-object condition inside the collect loop: the first branch
was not taken and `obj->depth == 0`, in which case `ret_obj = obj`. -/
def retHere (s : MemState) (p : Nat) : Bool :=
  decide (¬ s.aize_mem_depth ≤ depthAt s p ∧ depthAt s p = 0)

/-- Effect of one loop iteration of `aize_mem_collect` on the heap:
`free(obj)` when `freeHere` holds, nothing otherwise.  Freeing flips the
alive flag and keeps the header fields (the C `free` does not rewrite
them), so the loop's later field reads see the original values. -/
def freeStep (s : MemState) (h : List AizeBase) (p : Nat) : List AizeBase :=
  if freeHere s p then hSet h p { hGet s.heap p with alive := false } else h

/-- Translation of `aize_mem_collect`: scan the Ledger from the tail
while `contScan` holds; free every scanned object satisfying `freeHere`;
`ret_obj` ends as the last scanned entry (in scan order) satisfying
`retHere`, i.e. the earliest-allocated one; pop the scanned entries;
finally, if a returned object was found, set its depth to
`aize_mem_depth - 1` and re-append it. -/
def aize_mem_collect (s : MemState) : MemState :=
  let scanned := s.bound.reverse.takeWhile (contScan s)
  let retObj : Option Nat := (scanned.filter (retHere s)).getLast?
  let heap1 := scanned.foldl (freeStep s) s.heap
  let s1 := aize_mem_pop_mem scanned.length { s with heap := heap1 }
  match retObj with
  | none => s1
  | some p =>
      aize_mem_add_mem p
        { s1 with heap := hSet s1.heap p { hGet s1.heap p with depth := s.aize_mem_depth - 1 } }

/-- Translation of `aize_mem_exit`: collect, then decrement the Depth
Counter. -/
def aize_mem_exit (s : MemState) : MemState :=
  let s1 := aize_mem_collect s
  { s1 with aize_mem_depth := s1.aize_mem_depth - 1 }

/-- Modelled from the spec: `mem_mark_return(obj)` as a standalone
operation (set `obj->depth` to the 0 sentinel when `obj->depth >=
aize_mem_depth`, leave it untouched otherwise).  In the source this code
exists only as the opening statements of `aize_mem_ret`; the theorem for
the implicit ret-performs-exit claim compares `aize_mem_ret` against
this operation followed by `aize_mem_exit`. -/
def aize_mem_mark_return (p : Nat) (s : MemState) : MemState :=
  if s.aize_mem_depth ≤ depthAt s p then
    { s with heap := hSet s.heap p { hGet s.heap p with depth := 0 } }
  else s

/-- Translation of `aize_mem_ret`: set `obj->depth = 0` when it is at
least the current depth, call `aize_mem_exit`, and return the object. -/
def aize_mem_ret (p : Nat) (s : MemState) : MemState × Nat :=
  let s1 := if s.aize_mem_depth ≤ depthAt s p then
      { s with heap := hSet s.heap p { hGet s.heap p with depth := 0 } }
    else s
  (aize_mem_exit s1, p)

/-- Object reference, `struct AizeObjectRef`: a vtable pointer and an
object pointer, each possibly NULL (`none`). -/
structure AizeObjectRef where
  vtable : Option Nat
  obj : Option Nat
deriving DecidableEq, Repr

/-- The all-NULL reference `{NULL, NULL}` returned by `AizeList_get` out
of bounds; also the content of calloc-zeroed slots. -/
def nullObjectRef : AizeObjectRef := { vtable := none, obj := none }

/-- Builtin growable list, `struct AizeList`: logical length, the
`capacity` field, and the backing buffer `arr`, modelled at the byte
level: `arrBytes` is the byte size of the current allocation and `arr`
lists the initialized slots that fit in it.  `refSize` below stands for
`sizeof(AizeObjectRef)` (two pointers, 16 on 64-bit targets). -/
structure AizeList where
  len : Nat
  capacity : Nat
  arrBytes : Nat
  arr : List AizeObjectRef
deriving DecidableEq, Repr

/-- Translation of `AizeList_new`: length 0, capacity
`LIST_START_SIZE = 16`, buffer `calloc(16, sizeof(AizeObjectRef))`, i.e.
`16 * refSize` bytes of zeroed (all-NULL) slots.  The list object itself
is allocated through `aize_mem_malloc`; that registration is orthogonal
to the buffer logic the container claims are about. -/
def AizeList_new (refSize : Nat) : AizeList :=
  { len := 0, capacity := 16, arrBytes := 16 * refSize,
    arr := List.replicate 16 nullObjectRef }

/-- Translation of `AizeList_append`: when `len == capacity` the buffer
is passed to `realloc(list->arr, list->capacity * LIST_SCALE_FACTOR)` -
a byte count that omits the element size - and `capacity` is doubled;
then the store `list->arr[list->len] = obj` is performed.  The store is
in bounds only when slot `len` fits in the allocation
(`(len + 1) * refSize <= arrBytes`); otherwise it overflows the heap
block, which the model reports as `none`.  A shrinking realloc keeps
only the slots that fit in the new byte size. -/
def AizeList_append (refSize : Nat) (l : AizeList) (obj : AizeObjectRef) : Option AizeList :=
  let l1 := if l.len = l.capacity then
      { l with arr := l.arr.take (l.capacity * 2 / refSize),
               arrBytes := l.capacity * 2,
               capacity := l.capacity * 2 }
    else l
  if (l1.len + 1) * refSize ≤ l1.arrBytes then
    some { l1 with arr := l1.arr.set l1.len obj, len := l1.len + 1 }
  else none

/-- Translation of `AizeList_get`: `item >= 0 && item < list->len`
returns `list->arr[item]` (the `item >= 0` half is vacuous for the
unsigned `size_t` argument), otherwise the `{NULL, NULL}` reference is
returned.  An in-range read still has to land inside the current
allocation and on an initialized slot; a read outside it (possible only
on buffers truncated by the buggy growth realloc) is reported as
`none`. -/
def AizeList_get (refSize : Nat) (l : AizeList) (item : Nat) : Option AizeObjectRef :=
  if item < l.len then
    if (item + 1) * refSize ≤ l.arrBytes ∧ item < l.arr.length then
      some (l.arr.getD item nullObjectRef)
    else none
  else some nullObjectRef

/-- Sequence of `AizeList_append` calls, stopping at the first
out-of-bounds store. -/
def AizeList_appendAll (refSize : Nat) (l : AizeList) (rs : List AizeObjectRef) :
    Option AizeList :=
  rs.foldlM (fun acc r => AizeList_append refSize acc r) l

/-- Sample non-null reference used by concrete evaluations. -/
def sampleRef : AizeObjectRef := { vtable := some 1, obj := some 2 }

/-- States reachable from process start by the boundary API under the
balanced scope discipline: `aize_mem_init` once at start, then any
interleaving of allocations, scope entries, and scope exits
(`aize_mem_exit` directly or via `aize_mem_ret` on a live object), where
every exit matches an earlier unmatched enter - hence exits happen only
at depth at least 2 over the base depth 1. -/
inductive Reach : MemState → Prop where
  | start : Reach (aize_mem_init initialMemState)
  | enter {s : MemState} : Reach s → Reach (aize_mem_enter s)
  | alloc {s s' : MemState} {rc0 p : Nat} :
      Reach s → aize_mem_malloc true rc0 s = AllocResult.returned s' p → Reach s'
  | exitScope {s : MemState} : Reach s → 2 ≤ s.aize_mem_depth → Reach (aize_mem_exit s)
  | retScope {s : MemState} {p : Nat} :
      Reach s → 2 ≤ s.aize_mem_depth → (hGet s.heap p).alive = true →
      Reach (aize_mem_ret p s).fst

/-- Ledger invariant maintained by the balanced discipline: the Depth
Counter is positive, every Ledger entry points at a live object whose
depth lies in `[1, aize_mem_depth]`, and entry depths are non-decreasing
along the Ledger (entries are appended in allocation order and never
reordered). -/
def LedgerInv (s : MemState) : Prop :=
  1 ≤ s.aize_mem_depth ∧
  (∀ p ∈ s.bound,
    (hGet s.heap p).alive = true ∧ 1 ≤ depthAt s p ∧ depthAt s p ≤ s.aize_mem_depth) ∧
  s.bound.Pairwise (fun p q => depthAt s p ≤ depthAt s q)

/-- Second sample non-null reference used by concrete evaluations. -/
def sampleRef2 : AizeObjectRef := { vtable := some 3, obj := some 4 }

/-- Concrete state for the reclamation scenario: depth 2 is exiting, the
Ledger holds object 0 of depth 1 (caller scope) and object 1 of depth 2
with zero reference count. -/
def exReclaim : MemState :=
  { aize_mem_depth := 2, bound := [0, 1], boundCapacity := 256,
    heap := [{ depth := 1, ref_count := 0, alive := true },
             { depth := 2, ref_count := 0, alive := true }] }

/-- Concrete state for the escape scenario: depth 2 is exiting via
`aize_mem_ret` on object 1 (depth 2); object 0 belongs to depth 1. -/
def exEscape : MemState :=
  { aize_mem_depth := 2, bound := [0, 1], boundCapacity := 256,
    heap := [{ depth := 1, ref_count := 0, alive := true },
             { depth := 2, ref_count := 0, alive := true }] }

/-- Concrete state for the floating scenario: depth 2 is exiting and the
only Ledger entry is object 0, at depth 2 with reference count 1. -/
def exFloat : MemState :=
  { aize_mem_depth := 2, bound := [0], boundCapacity := 256,
    heap := [{ depth := 2, ref_count := 1, alive := true }] }

/-- Concrete state with two depth-0 sentinel entries in the scanned
tail: entries 1 and 2 carry the sentinel, entry 3 belongs to the exiting
depth 2, entry 0 to the enclosing depth 1. -/
def exTwoSentinels : MemState :=
  { aize_mem_depth := 2, bound := [0, 1, 2, 3], boundCapacity := 256,
    heap := [{ depth := 1, ref_count := 0, alive := true },
             { depth := 0, ref_count := 0, alive := true },
             { depth := 0, ref_count := 5, alive := true },
             { depth := 2, ref_count := 0, alive := true }] }

/-- Concrete well-formed builtin list with two stored references. -/
def exList : AizeList :=
  { len := 2, capacity := 16, arrBytes := 256,
    arr := [sampleRef, sampleRef2] ++ List.replicate 14 nullObjectRef }

/-- Concrete reachable state: one allocation at depth 2 after one scope
entry. -/
def exReached : MemState :=
  { aize_mem_depth := 2, bound := [0], boundCapacity := 256,
    heap := [{ depth := 2, ref_count := 0, alive := true }] }

/-- Concrete state produced by the first allocation at base depth 1. -/
def exFirstAlloc : MemState :=
  { aize_mem_depth := 1, bound := [0], boundCapacity := 256,
    heap := [{ depth := 1, ref_count := 0, alive := true }] }

/-- Byte-faithful model of the Ledger backing array, `struct
AizeArrayList` (`size_t capacity; size_t len; AizeBase** arr`).
Pointers are 8 bytes on the 64-bit targets the README's toolchains
produce, so `sizeof(AizeBase*) = sizeof(AizeBase**) = 8`.  `arrBytes`
is the byte size of the current allocation; `arr` lists the readable,
initialized slots that fit in it (calloc-zeroed or previously stored);
`len` is the `len` field, which the code maintains independently of the
allocation's real size. -/
structure AizeArrayList where
  capacity : Nat
  len : Nat
  arrBytes : Nat
  arr : List Nat
deriving DecidableEq, Repr

/-- Byte-level translation of `aize_mem_init`:
`calloc(START_SIZE, sizeof(AizeBase**))` - the element size is present
here - gives a zeroed block of `256 * 8` bytes, and `capacity` is set
to 256. -/
def aize_mem_init_bytes : AizeArrayList :=
  { capacity := 256, len := 0, arrBytes := 256 * 8, arr := List.replicate 256 0 }

/-- Byte-level translation of `aize_mem_add_mem`: the grow realloc
passes `capacity * SCALE_FACTOR * sizeof(AizeBase**)` bytes (element
size present, contents preserved), then the store
`arr[len] = mem` is performed - in bounds only when slot `len` fits the
allocation and the written region; otherwise the store overflows the
heap block, reported as `none`. -/
def aize_mem_add_mem_bytes (p : Nat) (b : AizeArrayList) : Option AizeArrayList :=
  let b1 := if b.len = b.capacity then
      { b with arrBytes := b.capacity * 2 * 8, capacity := b.capacity * 2 }
    else b
  if (b1.len + 1) * 8 ≤ b1.arrBytes ∧ b1.len ≤ b1.arr.length then
    some { b1 with
      arr := if b1.len < b1.arr.length then b1.arr.set b1.len p else b1.arr ++ [p],
      len := b1.len + 1 }
  else none

/-- Byte-level translation of `aize_mem_pop_mem`: `len -= num`, then
when `capacity >= SHRINK_FACTOR * START_SIZE` and the new `len` is
below `capacity / SHRINK_WHEN`, the code calls
`realloc(aize_mem_bound.arr, aize_mem_bound.capacity / SHRINK_FACTOR)` -
a byte count that omits the element size - truncating the block to
`capacity / 2` bytes, i.e. `capacity / 16` slots; entries beyond them
become unreadable.  `capacity` is then halved. -/
def aize_mem_pop_mem_bytes (num : Nat) (b : AizeArrayList) : AizeArrayList :=
  let b1 := { b with len := b.len - num }
  if 2 * 256 ≤ b1.capacity ∧ b1.len < b1.capacity / 4 then
    { b1 with arrBytes := b1.capacity / 2,
              arr := b1.arr.take (b1.capacity / 2 / 8),
              capacity := b1.capacity / 2 }
  else b1

/-- Sequence of byte-level registrations, stopping at the first
out-of-bounds store. -/
def aize_mem_add_all_bytes (ps : List Nat) (b : AizeArrayList) : Option AizeArrayList :=
  ps.foldlM (fun acc p => aize_mem_add_mem_bytes p acc) b

/-- Byte-level Ledger reached by a balanced run: 100 registrations in
the base scope, 157 registrations in a nested scope (the array grows to
capacity 512 when the 257th entry is registered), then the nested
scope's exit pops its 157 entries - the shrink realloc triggers at
capacity 512 with 100 surviving entries. -/
def exShrinkLedger : Option AizeArrayList :=
  (aize_mem_add_all_bytes (List.range 257) aize_mem_init_bytes).map
    (aize_mem_pop_mem_bytes 157)

/-- Writing the heap preserves its size. -/
theorem hSet_length (h : List AizeBase) (p : Nat) (x : AizeBase) :
    (hSet h p x).length = h.length := by
  induction h generalizing p with
  | nil => rfl
  | cons b t ih =>
    cases p with
    | zero => rfl
    | succ n => simpa [hSet] using ih n

/-- Reading an address other than the written one is unchanged. -/
theorem hGet_hSet_ne (h : List AizeBase) (p q : Nat) (x : AizeBase) (hne : p ≠ q) :
    hGet (hSet h p x) q = hGet h q := by
  induction h generalizing p q with
  | nil => rfl
  | cons b t ih =>
    cases p with
    | zero =>
      cases q with
      | zero => exact absurd rfl hne
      | succ m => rfl
    | succ n =>
      cases q with
      | zero => rfl
      | succ m =>
        simpa [hSet, hGet] using ih n m (fun hh => hne (by rw [hh]))

/-- Reading the written address gives the written header. -/
theorem hGet_hSet_self (h : List AizeBase) (p : Nat) (x : AizeBase) (hp : p < h.length) :
    hGet (hSet h p x) p = x := by
  induction h generalizing p with
  | nil => simp at hp
  | cons b t ih =>
    cases p with
    | zero => rfl
    | succ n => simpa [hSet, hGet] using ih n (by simpa using hp)

/-- Reading below the old size is unchanged by growing the heap. -/
theorem hGet_append_lt (h h2 : List AizeBase) (p : Nat) (hp : p < h.length) :
    hGet (h ++ h2) p = hGet h p := by
  induction h generalizing p with
  | nil => simp at hp
  | cons b t ih =>
    cases p with
    | zero => rfl
    | succ n => simpa [hGet] using ih n (by simpa using hp)

/-- Reading the freshly appended cell. -/
theorem hGet_append_len (h : List AizeBase) (x : AizeBase) :
    hGet (h ++ [x]) h.length = x := by
  induction h with
  | nil => rfl
  | cons b t ih => simpa [hGet] using ih

/-- Reading outside the allocated cells gives the dead default. -/
theorem hGet_default (h : List AizeBase) (p : Nat) (hp : h.length ≤ p) :
    hGet h p = { depth := 0, ref_count := 0, alive := false } := by
  induction h generalizing p with
  | nil => rfl
  | cons b t ih =>
    cases p with
    | zero => simp at hp
    | succ n => simpa [hGet] using ih n (by simpa using hp)

/-- A live header can only be read from an allocated cell. -/
theorem lt_length_of_alive (h : List AizeBase) (p : Nat)
    (ha : (hGet h p).alive = true) : p < h.length := by
  by_contra hc
  push_neg at hc
  rw [hGet_default h p hc] at ha
  simp at ha

/-- Scanning a block that satisfies the predicate continues past it. -/
theorem takeWhile_append_all {α : Type} (p : α → Bool) (xs ys : List α)
    (h : ∀ x ∈ xs, p x = true) :
    (xs ++ ys).takeWhile p = xs ++ ys.takeWhile p := by
  induction xs with
  | nil => simp
  | cons a t ih =>
    have ha : p a = true := h a (by simp)
    simp only [List.cons_append, List.takeWhile_cons, ha, if_true]
    rw [ih (fun x hx => h x (by simp [hx]))]

/-- Scanning stops immediately on a failing head. -/
theorem takeWhile_nil_of_head_false {α : Type} (p : α → Bool) (a : α) (t : List α)
    (h : p a = false) : (a :: t).takeWhile p = [] := by
  simp [List.takeWhile_cons, h]

/-- Taking the length of the left part of an append returns it. -/
theorem take_len_append {α : Type} (l1 l2 : List α) : (l1 ++ l2).take l1.length = l1 := by
  induction l1 with
  | nil => simp
  | cons a t ih => simp [ih]

/-- The last match of a backward scan is the first match in Ledger
order. -/
theorem getLast_reverse_filter {α : Type} (f : α → Bool) (l : List α) :
    (l.reverse.filter f).getLast? = (l.filter f).head? := by
  rw [List.filter_reverse, List.getLast?_reverse]

/-- One collector free step preserves the heap size. -/
theorem freeStep_length (s : MemState) (h : List AizeBase) (p : Nat) :
    (freeStep s h p).length = h.length := by
  unfold freeStep
  split <;> simp [hSet_length]

/-- The collector free pass preserves the heap size. -/
theorem freeFold_length (s : MemState) (l : List Nat) (h : List AizeBase) :
    (l.foldl (freeStep s) h).length = h.length := by
  induction l generalizing h with
  | nil => rfl
  | cons x t ih => simp [List.foldl_cons, ih, freeStep_length]

/-- An object that is not freed by the pass keeps its header. -/
theorem freeFold_get_of_not (s : MemState) (l : List Nat) (h : List AizeBase) (r : Nat)
    (hr : ¬ (r ∈ l ∧ freeHere s r = true)) :
    hGet (l.foldl (freeStep s) h) r = hGet h r := by
  induction l generalizing h with
  | nil => rfl
  | cons x t ih =>
    simp only [List.foldl_cons]
    have hrt : ¬ (r ∈ t ∧ freeHere s r = true) := by
      intro hc
      exact hr ⟨List.mem_cons_of_mem x hc.1, hc.2⟩
    rw [ih (freeStep s h x) hrt]
    by_cases hxr : x = r
    · have hfr : freeHere s r = false := by
        by_contra hc
        simp only [Bool.not_eq_false] at hc
        exact hr ⟨hxr ▸ List.mem_cons_self x t, hc⟩
      unfold freeStep
      rw [hxr, hfr]
      simp
    · unfold freeStep
      split
      · exact hGet_hSet_ne h x r _ hxr
      · rfl

/-- An object that the pass frees ends dead with its other header
fields preserved. -/
theorem freeFold_get_of_freed (s : MemState) (l : List Nat) (h : List AizeBase) (r : Nat)
    (hmem : r ∈ l) (hf : freeHere s r = true) (hr : r < h.length) :
    hGet (l.foldl (freeStep s) h) r = { hGet s.heap r with alive := false } := by
  induction l generalizing h with
  | nil => simp at hmem
  | cons x t ih =>
    simp only [List.foldl_cons]
    by_cases hxt : r ∈ t
    · exact ih (freeStep s h x) hxt (by rw [freeStep_length]; exact hr)
    · have hxr : x = r := by
        rcases List.mem_cons.mp hmem with h1 | h1
        · exact h1.symm
        · exact absurd h1 hxt
      rw [freeFold_get_of_not s t (freeStep s h x) r (fun hc => hxt hc.1)]
      unfold freeStep
      rw [hxr, hf]
      simp only [if_true]
      exact hGet_hSet_self h r _ hr


/-- Popping only truncates the entry list. -/
theorem aize_mem_pop_mem_bound (num : Nat) (s : MemState) :
    (aize_mem_pop_mem num s).bound = s.bound.take (s.bound.length - num) := by
  simp only [aize_mem_pop_mem]
  split <;> rfl

/-- Popping does not touch the heap. -/
theorem aize_mem_pop_mem_heap (num : Nat) (s : MemState) :
    (aize_mem_pop_mem num s).heap = s.heap := by
  simp only [aize_mem_pop_mem]
  split <;> rfl

/-- Popping does not touch the Depth Counter. -/
theorem aize_mem_pop_mem_depth (num : Nat) (s : MemState) :
    (aize_mem_pop_mem num s).aize_mem_depth = s.aize_mem_depth := by
  simp only [aize_mem_pop_mem]
  split <;> rfl

/-- Registering appends the pointer to the entry list. -/
theorem aize_mem_add_mem_bound (p : Nat) (s : MemState) :
    (aize_mem_add_mem p s).bound = s.bound ++ [p] := by
  simp only [aize_mem_add_mem]
  split <;> rfl

/-- Registering does not touch the heap. -/
theorem aize_mem_add_mem_heap (p : Nat) (s : MemState) :
    (aize_mem_add_mem p s).heap = s.heap := by
  simp only [aize_mem_add_mem]
  split <;> rfl

/-- Registering does not touch the Depth Counter. -/
theorem aize_mem_add_mem_depth (p : Nat) (s : MemState) :
    (aize_mem_add_mem p s).aize_mem_depth = s.aize_mem_depth := by
  simp only [aize_mem_add_mem]
  split <;> rfl

/-- Truncating an append at the left length recovers the left part. -/
theorem take_sub_append {α : Type} (l1 l2 : List α) :
    (l1 ++ l2).take ((l1 ++ l2).length - l2.length) = l1 := by
  rw [List.length_append, Nat.add_sub_cancel, take_len_append]

/-- When the Ledger splits into an enclosing-scope part `lo` (depths
strictly between 0 and the current depth) and a tail `hi` whose entries
belong to the exiting scope or carry the sentinel, the collect loop
scans exactly `hi`. -/
theorem collect_scanned (s : MemState) (d : Nat) (lo hi : List Nat)
    (hcur : s.aize_mem_depth = d)
    (hb : s.bound = lo ++ hi)
    (hlo : ∀ q ∈ lo, 0 < depthAt s q ∧ depthAt s q < d)
    (hhi : ∀ q ∈ hi, d ≤ depthAt s q ∨ depthAt s q = 0) :
    s.bound.reverse.takeWhile (contScan s) = hi.reverse := by
  have hhiR : ∀ x ∈ hi.reverse, contScan s x = true := by
    intro x hx
    unfold contScan
    rw [hcur]
    exact decide_eq_true (hhi x (List.mem_reverse.mp hx))
  have hloF : ∀ q ∈ lo, contScan s q = false := by
    intro q hq
    unfold contScan
    rw [hcur]
    have h1 := hlo q hq
    simp only [decide_eq_false_iff_not]
    omega
  rw [hb, List.reverse_append, takeWhile_append_all _ _ _ hhiR]
  cases hrev : lo.reverse with
  | nil => simp
  | cons a t =>
    have ha : a ∈ lo := by
      have hm : a ∈ lo.reverse := by
        rw [hrev]
        exact List.mem_cons_self a t
      exact List.mem_reverse.mp hm
    rw [takeWhile_nil_of_head_false _ _ _ (hloF a ha)]
    simp

/-- Closed form of the Ledger after a collect: the enclosing-scope part
survives, the scanned tail is truncated, and the promoted object - the
first sentinel entry of the tail in Ledger order, if any - is
re-appended. -/
theorem aize_mem_collect_bound (s : MemState) (d : Nat) (lo hi : List Nat)
    (hcur : s.aize_mem_depth = d)
    (hb : s.bound = lo ++ hi)
    (hlo : ∀ q ∈ lo, 0 < depthAt s q ∧ depthAt s q < d)
    (hhi : ∀ q ∈ hi, d ≤ depthAt s q ∨ depthAt s q = 0) :
    (aize_mem_collect s).bound = lo ++ ((hi.filter (retHere s)).head?).toList := by
  have hsc := collect_scanned s d lo hi hcur hb hlo hhi
  cases hR : (hi.filter (retHere s)).head? with
  | none =>
    simp only [aize_mem_collect, hsc, getLast_reverse_filter, hR, aize_mem_pop_mem_bound,
      Option.toList, List.length_reverse, List.append_nil]
    rw [hb, List.length_append, Nat.add_sub_cancel, take_len_append]
  | some p =>
    simp only [aize_mem_collect, hsc, getLast_reverse_filter, hR, aize_mem_add_mem_bound,
      aize_mem_pop_mem_bound, Option.toList, List.length_reverse]
    rw [hb, List.length_append, Nat.add_sub_cancel, take_len_append]

/-- Collecting never changes the Depth Counter. -/
theorem aize_mem_collect_depth (s : MemState) :
    (aize_mem_collect s).aize_mem_depth = s.aize_mem_depth := by
  simp only [aize_mem_collect]
  split
  · rw [aize_mem_pop_mem_depth]
  · rw [aize_mem_add_mem_depth, aize_mem_pop_mem_depth]

/-- Header of the promoted object after a collect: its depth becomes
`aize_mem_depth - 1`; the other fields survive (a sentinel entry is
never freed by the loop, since its depth 0 is below the positive current
depth). -/
theorem aize_mem_collect_hGet_ret (s : MemState) (d : Nat) (lo hi : List Nat) (r : Nat)
    (hcur : s.aize_mem_depth = d)
    (hb : s.bound = lo ++ hi)
    (hlo : ∀ q ∈ lo, 0 < depthAt s q ∧ depthAt s q < d)
    (hhi : ∀ q ∈ hi, d ≤ depthAt s q ∨ depthAt s q = 0)
    (hret : (hi.filter (retHere s)).head? = some r)
    (hr : r < s.heap.length) :
    hGet (aize_mem_collect s).heap r = { hGet s.heap r with depth := d - 1 } := by
  have hsc := collect_scanned s d lo hi hcur hb hlo hhi
  have hrH : retHere s r = true := by
    cases hfl : hi.filter (retHere s) with
    | nil => rw [hfl] at hret; simp at hret
    | cons a t =>
      rw [hfl] at hret
      simp only [List.head?_cons, Option.some.injEq] at hret
      subst hret
      exact List.of_mem_filter (hfl ▸ List.mem_cons_self a t)
  have hprops : ¬ s.aize_mem_depth ≤ depthAt s r ∧ depthAt s r = 0 :=
    of_decide_eq_true hrH
  have hnotfree : ¬ (r ∈ hi.reverse ∧ freeHere s r = true) := by
    intro hc
    exact hprops.1 (of_decide_eq_true hc.2).1
  have hrlen : r < (hi.reverse.foldl (freeStep s) s.heap).length := by
    rw [freeFold_length]
    exact hr
  simp only [aize_mem_collect, hsc, getLast_reverse_filter, hret, aize_mem_add_mem_heap,
    aize_mem_pop_mem_heap]
  rw [hGet_hSet_self _ _ _ hrlen, freeFold_get_of_not s _ _ r hnotfree, hcur]

/-- Header of an object that the collect neither promotes nor frees is
unchanged. -/
theorem aize_mem_collect_hGet_other (s : MemState) (d : Nat) (lo hi : List Nat) (r : Nat)
    (hcur : s.aize_mem_depth = d)
    (hb : s.bound = lo ++ hi)
    (hlo : ∀ q ∈ lo, 0 < depthAt s q ∧ depthAt s q < d)
    (hhi : ∀ q ∈ hi, d ≤ depthAt s q ∨ depthAt s q = 0)
    (hretne : (hi.filter (retHere s)).head? ≠ some r)
    (hnf : ¬ (r ∈ hi ∧ freeHere s r = true)) :
    hGet (aize_mem_collect s).heap r = hGet s.heap r := by
  have hsc := collect_scanned s d lo hi hcur hb hlo hhi
  have hnfR : ¬ (r ∈ hi.reverse ∧ freeHere s r = true) := by
    intro hc
    exact hnf ⟨List.mem_reverse.mp hc.1, hc.2⟩
  cases hR : (hi.filter (retHere s)).head? with
  | none =>
    simp only [aize_mem_collect, hsc, getLast_reverse_filter, hR, aize_mem_pop_mem_heap]
    exact freeFold_get_of_not s _ _ r hnfR
  | some p =>
    have hpr : p ≠ r := fun he => hretne (he ▸ hR)
    simp only [aize_mem_collect, hsc, getLast_reverse_filter, hR, aize_mem_add_mem_heap,
      aize_mem_pop_mem_heap]
    rw [hGet_hSet_ne _ p r _ hpr]
    exact freeFold_get_of_not s _ _ r hnfR

/-- Header of an object freed by the collect: dead, other fields
preserved. -/
theorem aize_mem_collect_hGet_freed (s : MemState) (d : Nat) (lo hi : List Nat) (r : Nat)
    (hcur : s.aize_mem_depth = d)
    (hb : s.bound = lo ++ hi)
    (hlo : ∀ q ∈ lo, 0 < depthAt s q ∧ depthAt s q < d)
    (hhi : ∀ q ∈ hi, d ≤ depthAt s q ∨ depthAt s q = 0)
    (hretne : (hi.filter (retHere s)).head? ≠ some r)
    (hmem : r ∈ hi) (hf : freeHere s r = true) (hr : r < s.heap.length) :
    hGet (aize_mem_collect s).heap r = { hGet s.heap r with alive := false } := by
  have hsc := collect_scanned s d lo hi hcur hb hlo hhi
  have hmemR : r ∈ hi.reverse := List.mem_reverse.mpr hmem
  cases hR : (hi.filter (retHere s)).head? with
  | none =>
    simp only [aize_mem_collect, hsc, getLast_reverse_filter, hR, aize_mem_pop_mem_heap]
    exact freeFold_get_of_freed s _ _ r hmemR hf hr
  | some p =>
    have hpr : p ≠ r := fun he => hretne (he ▸ hR)
    simp only [aize_mem_collect, hsc, getLast_reverse_filter, hR, aize_mem_add_mem_heap,
      aize_mem_pop_mem_heap]
    rw [hGet_hSet_ne _ p r _ hpr]
    exact freeFold_get_of_freed s _ _ r hmemR hf hr

/-- Exiting does not change the Ledger beyond what the collect did. -/
theorem aize_mem_exit_bound (s : MemState) :
    (aize_mem_exit s).bound = (aize_mem_collect s).bound := rfl

/-- Exiting does not change the heap beyond what the collect did. -/
theorem aize_mem_exit_heap (s : MemState) :
    (aize_mem_exit s).heap = (aize_mem_collect s).heap := rfl

/-- Exiting decrements the Depth Counter. -/
theorem aize_mem_exit_depth (s : MemState) :
    (aize_mem_exit s).aize_mem_depth = s.aize_mem_depth - 1 := by
  show (aize_mem_collect s).aize_mem_depth - 1 = s.aize_mem_depth - 1
  rw [aize_mem_collect_depth]

/-- Splitting a depth-sorted pointer list at a cutoff. -/
theorem pairwise_split_at (f : Nat → Nat) (c : Nat) (l : List Nat)
    (hpw : l.Pairwise (fun p q => f p ≤ f q)) :
    ∃ lo hi, l = lo ++ hi ∧ (∀ q ∈ lo, f q < c) ∧ (∀ q ∈ hi, c ≤ f q) := by
  induction l with
  | nil => exact ⟨[], [], rfl, by simp, by simp⟩
  | cons x xs ih =>
    rw [List.pairwise_cons] at hpw
    obtain ⟨hx, hxs⟩ := hpw
    by_cases hc : f x < c
    · obtain ⟨lo, hi, heq, hlo, hhi⟩ := ih hxs
      refine ⟨x :: lo, hi, by rw [heq]; rfl, ?_, hhi⟩
      intro q hq
      rcases List.mem_cons.mp hq with h1 | h1
      · rw [h1]; exact hc
      · exact hlo q h1
    · push_neg at hc
      refine ⟨[], x :: xs, rfl, by simp, ?_⟩
      intro q hq
      rcases List.mem_cons.mp hq with h1 | h1
      · rw [h1]; exact hc
      · exact le_trans hc (hx q h1)

/-- Head of a filter keeping exactly one pointer value. -/
theorem filter_eq_head (p : Nat) (l : List Nat) :
    (l.filter (fun q => decide (q = p))).head? = if p ∈ l then some p else none := by
  induction l with
  | nil => simp
  | cons x t ih =>
    by_cases hx : x = p
    · subst hx
      simp [List.filter_cons]
    · rw [List.filter_cons]
      simp only [decide_eq_true_eq, hx, if_false]
      rw [ih]
      by_cases hp : p ∈ t
      · rw [if_pos hp, if_pos (List.mem_cons_of_mem x hp)]
      · have hnc : ¬ p ∈ x :: t := by
          intro hc
          rcases List.mem_cons.mp hc with h1 | h1
          · exact hx h1.symm
          · exact hp h1
        rw [if_neg hp, if_neg hnc]

/-- Main collector invariant lemma: exiting a scope at depth `d ≥ 2`
from a Ledger that splits into an enclosing part `lo` (live entries of
depth in `(0, d)`, depth-sorted) and an exiting tail `hi` (entries of
depth at least `d` or sentinel entries), where any promoted entry is
live, in range, and not in `lo`, re-establishes the Ledger invariant. -/
theorem inv_exit_split (u : MemState) (d : Nat) (lo hi : List Nat)
    (hcur : u.aize_mem_depth = d) (h2 : 2 ≤ d)
    (hb : u.bound = lo ++ hi)
    (hloA : ∀ q ∈ lo, (hGet u.heap q).alive = true)
    (hlo : ∀ q ∈ lo, 0 < depthAt u q ∧ depthAt u q < d)
    (hhi : ∀ q ∈ hi, d ≤ depthAt u q ∨ depthAt u q = 0)
    (hlopw : lo.Pairwise (fun a b => depthAt u a ≤ depthAt u b))
    (hsentA : ∀ r, (hi.filter (retHere u)).head? = some r →
      (hGet u.heap r).alive = true ∧ r < u.heap.length ∧ r ∉ lo) :
    LedgerInv (aize_mem_exit u) := by
  have hdpos : 1 ≤ d := le_trans (by omega) h2
  have hdisj : ∀ q ∈ lo, q ∉ hi := by
    intro q hq hqh
    have h1 := hlo q hq
    rcases hhi q hqh with hc | hc
    · omega
    · omega
  have hexitd : (aize_mem_exit u).aize_mem_depth = d - 1 := by
    rw [aize_mem_exit_depth, hcur]
  cases hR : (hi.filter (retHere u)).head? with
  | none =>
    have hbound : (aize_mem_exit u).bound = lo := by
      rw [aize_mem_exit_bound, aize_mem_collect_bound u d lo hi hcur hb hlo hhi, hR]
      simp [Option.toList]
    have hget : ∀ q ∈ lo, hGet (aize_mem_exit u).heap q = hGet u.heap q := by
      intro q hq
      rw [aize_mem_exit_heap]
      refine aize_mem_collect_hGet_other u d lo hi q hcur hb hlo hhi ?_ ?_
      · rw [hR]; simp
      · intro hc
        exact hdisj q hq hc.1
    refine ⟨?_, ?_, ?_⟩
    · rw [hexitd]; omega
    · intro q hq
      rw [hbound] at hq
      have hdq : depthAt (aize_mem_exit u) q = depthAt u q := by
        unfold depthAt
        rw [hget q hq]
      refine ⟨?_, ?_, ?_⟩
      · rw [hget q hq]; exact hloA q hq
      · rw [hdq]; exact (hlo q hq).1
      · rw [hdq, hexitd]
        have := (hlo q hq).2
        omega
    · rw [hbound]
      refine hlopw.imp_of_mem ?_
      intro a b ha hb2 hab
      have hda : depthAt (aize_mem_exit u) a = depthAt u a := by
        unfold depthAt
        rw [hget a ha]
      have hdb : depthAt (aize_mem_exit u) b = depthAt u b := by
        unfold depthAt
        rw [hget b hb2]
      rw [hda, hdb]
      exact hab
  | some r =>
    obtain ⟨hralive, hrlen, hrlo⟩ := hsentA r hR
    have hbound : (aize_mem_exit u).bound = lo ++ [r] := by
      rw [aize_mem_exit_bound, aize_mem_collect_bound u d lo hi hcur hb hlo hhi, hR]
      simp [Option.toList]
    have hgetr : hGet (aize_mem_exit u).heap r = { hGet u.heap r with depth := d - 1 } := by
      rw [aize_mem_exit_heap]
      exact aize_mem_collect_hGet_ret u d lo hi r hcur hb hlo hhi hR hrlen
    have hget : ∀ q ∈ lo, hGet (aize_mem_exit u).heap q = hGet u.heap q := by
      intro q hq
      rw [aize_mem_exit_heap]
      refine aize_mem_collect_hGet_other u d lo hi q hcur hb hlo hhi ?_ ?_
      · rw [hR]
        intro hc
        simp only [Option.some.injEq] at hc
        exact hrlo (hc ▸ hq)
      · intro hc
        exact hdisj q hq hc.1
    have hdr : depthAt (aize_mem_exit u) r = d - 1 := by
      unfold depthAt
      rw [hgetr]
    refine ⟨?_, ?_, ?_⟩
    · rw [hexitd]; omega
    · intro q hq
      rw [hbound] at hq
      rcases List.mem_append.mp hq with hq1 | hq1
      · have hdq : depthAt (aize_mem_exit u) q = depthAt u q := by
          unfold depthAt
          rw [hget q hq1]
        refine ⟨?_, ?_, ?_⟩
        · rw [hget q hq1]; exact hloA q hq1
        · rw [hdq]; exact (hlo q hq1).1
        · rw [hdq, hexitd]
          have := (hlo q hq1).2
          omega
      · have hqr : q = r := by simpa using hq1
        subst hqr
        refine ⟨?_, ?_, ?_⟩
        · rw [hgetr]; exact hralive
        · rw [hdr]; omega
        · rw [hdr, hexitd]
    · rw [hbound, List.pairwise_append]
      refine ⟨?_, by simp, ?_⟩
      · refine hlopw.imp_of_mem ?_
        intro a b ha hb2 hab
        have hda : depthAt (aize_mem_exit u) a = depthAt u a := by
          unfold depthAt
          rw [hget a ha]
        have hdb : depthAt (aize_mem_exit u) b = depthAt u b := by
          unfold depthAt
          rw [hget b hb2]
        rw [hda, hdb]
        exact hab
      · intro a ha b hb2
        have hbr : b = r := by simpa using hb2
        subst hbr
        have hda : depthAt (aize_mem_exit u) a = depthAt u a := by
          unfold depthAt
          rw [hget a ha]
        rw [hda, hdr]
        have := (hlo a ha).2
        omega

/-- A head of a filtered list is a member satisfying the filter. -/
theorem head_filter_mem_true {f : Nat → Bool} {l : List Nat} {r : Nat}
    (h : (l.filter f).head? = some r) : r ∈ l ∧ f r = true := by
  cases hfl : l.filter f with
  | nil => rw [hfl] at h; simp at h
  | cons a t =>
    rw [hfl] at h
    simp only [List.head?_cons, Option.some.injEq] at h
    subst h
    exact ⟨List.mem_of_mem_filter (hfl ▸ List.mem_cons_self a t),
      List.of_mem_filter (hfl ▸ List.mem_cons_self a t)⟩

/-- The Ledger invariant holds right after initialization. -/
theorem inv_start : LedgerInv (aize_mem_init initialMemState) := by
  refine ⟨by simp [aize_mem_init, initialMemState], ?_, ?_⟩
  · intro p hp
    simp [aize_mem_init, initialMemState] at hp
  · simp [aize_mem_init, initialMemState]

/-- Scope entry preserves the Ledger invariant. -/
theorem inv_enter (s : MemState) (h : LedgerInv s) : LedgerInv (aize_mem_enter s) := by
  obtain ⟨h1, h2, h3⟩ := h
  refine ⟨?_, ?_, ?_⟩
  · show 1 ≤ s.aize_mem_depth + 1
    omega
  · intro p hp
    have hh := h2 p hp
    refine ⟨hh.1, hh.2.1, ?_⟩
    show depthAt s p ≤ s.aize_mem_depth + 1
    have := hh.2.2
    omega
  · exact h3

/-- Allocation at the current depth preserves the Ledger invariant. -/
theorem inv_alloc_general (s : MemState) (rc0 : Nat) (h : LedgerInv s) :
    LedgerInv (aize_mem_add_mem s.heap.length
      { s with
        heap := s.heap ++ [{ depth := s.aize_mem_depth, ref_count := rc0, alive := true }] }) := by
  obtain ⟨h1, h2, h3⟩ := h
  have hheapEq : (aize_mem_add_mem s.heap.length
      { s with
        heap := s.heap ++ [{ depth := s.aize_mem_depth, ref_count := rc0, alive := true }] }).heap =
      s.heap ++ [{ depth := s.aize_mem_depth, ref_count := rc0, alive := true }] := by
    rw [aize_mem_add_mem_heap]
  have hboundEq : (aize_mem_add_mem s.heap.length
      { s with
        heap := s.heap ++ [{ depth := s.aize_mem_depth, ref_count := rc0, alive := true }] }).bound = s.bound ++ [s.heap.length] := by
    rw [aize_mem_add_mem_bound]
  have hdepthEq : (aize_mem_add_mem s.heap.length
      { s with
        heap := s.heap ++ [{ depth := s.aize_mem_depth, ref_count := rc0, alive := true }] }).aize_mem_depth = s.aize_mem_depth := by
    rw [aize_mem_add_mem_depth]
  have hgetOld : ∀ q ∈ s.bound, hGet (aize_mem_add_mem s.heap.length
      { s with
        heap := s.heap ++ [{ depth := s.aize_mem_depth, ref_count := rc0, alive := true }] }).heap q = hGet s.heap q := by
    intro q hq
    rw [hheapEq]
    exact hGet_append_lt _ _ q (lt_length_of_alive _ _ (h2 q hq).1)
  have hgetNew : hGet (aize_mem_add_mem s.heap.length
      { s with
        heap := s.heap ++ [{ depth := s.aize_mem_depth, ref_count := rc0, alive := true }] }).heap s.heap.length =
      { depth := s.aize_mem_depth, ref_count := rc0, alive := true } := by
    rw [hheapEq]
    exact hGet_append_len _ _
  refine ⟨?_, ?_, ?_⟩
  · rw [hdepthEq]
    exact h1
  · intro q hq
    rw [hboundEq] at hq
    rcases List.mem_append.mp hq with hq1 | hq1
    · have hh := h2 q hq1
      refine ⟨?_, ?_, ?_⟩
      · rw [hgetOld q hq1]
        exact hh.1
      · unfold depthAt
        rw [hgetOld q hq1]
        exact hh.2.1
      · unfold depthAt
        rw [hgetOld q hq1, hdepthEq]
        exact hh.2.2
    · have hq2 : q = s.heap.length := by simpa using hq1
      subst hq2
      refine ⟨?_, ?_, ?_⟩
      · rw [hgetNew]
      · unfold depthAt
        rw [hgetNew]
        exact h1
      · unfold depthAt
        rw [hgetNew, hdepthEq]
  · rw [hboundEq, List.pairwise_append]
    refine ⟨?_, by simp, ?_⟩
    · refine h3.imp_of_mem ?_
      intro a b ha hb hab
      unfold depthAt
      rw [hgetOld a ha, hgetOld b hb]
      exact hab
    · intro a ha b hb
      have hb2 : b = s.heap.length := by simpa using hb
      subst hb2
      unfold depthAt
      rw [hgetOld a ha, hgetNew]
      exact (h2 a ha).2.2

/-- The successful allocation path preserves the Ledger invariant. -/
theorem inv_alloc (s s' : MemState) (rc0 p : Nat) (h : LedgerInv s)
    (ha : aize_mem_malloc true rc0 s = AllocResult.returned s' p) : LedgerInv s' := by
  unfold aize_mem_malloc at ha
  rw [if_pos rfl] at ha
  injection ha with h1 h2
  rw [← h1]
  exact inv_alloc_general s rc0 h

/-- Scope exit preserves the Ledger invariant. -/
theorem inv_exit (s : MemState) (h : LedgerInv s) (h2 : 2 ≤ s.aize_mem_depth) :
    LedgerInv (aize_mem_exit s) := by
  obtain ⟨h1, hent, hpw⟩ := h
  obtain ⟨lo, hi, heq, hlo, hhi⟩ :=
    pairwise_split_at (depthAt s) s.aize_mem_depth s.bound hpw
  have hmemLo : ∀ q ∈ lo, q ∈ s.bound := by
    intro q hq
    rw [heq]
    exact List.mem_append.mpr (Or.inl hq)
  refine inv_exit_split s s.aize_mem_depth lo hi rfl h2 heq ?_ ?_ ?_ ?_ ?_
  · intro q hq
    exact (hent q (hmemLo q hq)).1
  · intro q hq
    exact ⟨(hent q (hmemLo q hq)).2.1, hlo q hq⟩
  · intro q hq
    exact Or.inl (hhi q hq)
  · exact (List.pairwise_append.mp (heq ▸ hpw)).1
  · intro r hr
    exfalso
    obtain ⟨hrm, hrf⟩ := head_filter_mem_true hr
    have hprops := of_decide_eq_true hrf
    exact hprops.1 (hhi r hrm)

/-- Returning from a scope after marking preserves the Ledger invariant:
the marked state (heap written with the depth-0 sentinel at `p`) still
satisfies the split hypotheses of the collector lemma, with `p` as the
only sentinel candidate. -/
theorem inv_ret_marked (s : MemState) (p : Nat) (u : MemState)
    (hub : u.bound = s.bound) (hud : u.aize_mem_depth = s.aize_mem_depth)
    (huh : u.heap = hSet s.heap p { hGet s.heap p with depth := 0 })
    (h : LedgerInv s) (h2 : 2 ≤ s.aize_mem_depth)
    (halive : (hGet s.heap p).alive = true)
    (hmark : s.aize_mem_depth ≤ depthAt s p) :
    LedgerInv (aize_mem_exit u) := by
  obtain ⟨h1, hent, hpw⟩ := h
  have hplen : p < s.heap.length := lt_length_of_alive _ _ halive
  have hUget : ∀ q, q ≠ p → hGet u.heap q = hGet s.heap q := by
    intro q hq
    rw [huh]
    exact hGet_hSet_ne _ _ _ _ (fun he => hq he.symm)
  have hUgetp : hGet u.heap p = { hGet s.heap p with depth := 0 } := by
    rw [huh]
    exact hGet_hSet_self _ _ _ hplen
  have hdup : depthAt u p = 0 := by
    unfold depthAt
    rw [hUgetp]
  have hdq : ∀ q, q ≠ p → depthAt u q = depthAt s q := by
    intro q hq
    unfold depthAt
    rw [hUget q hq]
  obtain ⟨lo, hi, heq, hlo, hhi⟩ :=
    pairwise_split_at (depthAt s) s.aize_mem_depth s.bound hpw
  have hmemLo : ∀ q ∈ lo, q ∈ s.bound := by
    intro q hq
    rw [heq]
    exact List.mem_append.mpr (Or.inl hq)
  have hq_ne : ∀ q ∈ lo, q ≠ p := by
    intro q hq he
    have hd := hlo q hq
    rw [he] at hd
    omega
  have hfil : hi.filter (retHere u) = hi.filter (fun q => decide (q = p)) := by
    apply List.filter_congr
    intro q hq
    by_cases hqp : q = p
    · subst hqp
      have hT : retHere u q = true := by
        unfold retHere
        apply decide_eq_true
        constructor
        · rw [hud, hdup]
          omega
        · exact hdup
      rw [hT]
      simp
    · have hF : retHere u q = false := by
        unfold retHere
        simp only [decide_eq_false_iff_not]
        intro hc
        rw [hud, hdq q hqp] at hc
        exact hc.1 (hhi q hq)
      rw [hF]
      simp [hqp]
  refine inv_exit_split u s.aize_mem_depth lo hi hud h2 (hub.trans heq) ?_ ?_ ?_ ?_ ?_
  · intro q hq
    rw [hUget q (hq_ne q hq)]
    exact (hent q (hmemLo q hq)).1
  · intro q hq
    rw [hdq q (hq_ne q hq)]
    exact ⟨(hent q (hmemLo q hq)).2.1, hlo q hq⟩
  · intro q hq
    by_cases hqp : q = p
    · subst hqp
      exact Or.inr hdup
    · rw [hdq q hqp]
      exact Or.inl (hhi q hq)
  · refine ((List.pairwise_append.mp (heq ▸ hpw)).1).imp_of_mem ?_
    intro a b ha hb hab
    rw [hdq a (hq_ne a ha), hdq b (hq_ne b hb)]
    exact hab
  · intro r hr
    rw [hfil, filter_eq_head] at hr
    by_cases hpin : p ∈ hi
    · rw [if_pos hpin] at hr
      have hrp : r = p := by
        simpa using hr.symm
      subst hrp
      refine ⟨?_, ?_, ?_⟩
      · rw [hUgetp]
        exact halive
      · rw [huh, hSet_length]
        exact hplen
      · intro hc
        exact hq_ne r hc rfl
    · rw [if_neg hpin] at hr
      exact absurd hr (by simp)

/-- The combined mark-and-exit of `aize_mem_ret` preserves the Ledger
invariant. -/
theorem inv_ret (s : MemState) (p : Nat) (h : LedgerInv s) (h2 : 2 ≤ s.aize_mem_depth)
    (halive : (hGet s.heap p).alive = true) : LedgerInv (aize_mem_ret p s).fst := by
  by_cases hmark : s.aize_mem_depth ≤ depthAt s p
  · have hretEq : (aize_mem_ret p s).fst = aize_mem_exit
        { s with heap := hSet s.heap p { hGet s.heap p with depth := 0 } } := by
      simp only [aize_mem_ret, if_pos hmark]
    rw [hretEq]
    exact inv_ret_marked s p _ rfl rfl rfl h h2 halive hmark
  · have hretEq : (aize_mem_ret p s).fst = aize_mem_exit s := by
      simp only [aize_mem_ret, if_neg hmark]
    rw [hretEq]
    exact inv_exit s h h2

/-- Every state reachable under the balanced scope discipline satisfies
the Ledger invariant. -/
theorem reach_inv (s : MemState) (h : Reach s) : LedgerInv s := by
  induction h with
  | start => exact inv_start
  | enter _ ih => exact inv_enter _ ih
  | alloc _ hmalloc ih => exact inv_alloc _ _ _ _ ih hmalloc
  | exitScope _ h2 ih => exact inv_exit _ ih h2
  | retScope _ h2 halive ih => exact inv_ret _ _ ih h2 halive

/-- Claim C1: an object allocated at depth `d` with zero reference count
and never marked for return (its header still carries depth `d`), whose
Ledger entry lies in the exiting scope's tail, is freed by
`aize_mem_exit` at depth `d` and its entry is removed from the Ledger by
the truncation step. -/
theorem reclamation_soundness (s : MemState) (d p : Nat) (lo post : List Nat)
    (hd : 1 ≤ d) (hcur : s.aize_mem_depth = d)
    (hb : s.bound = lo ++ p :: post)
    (hp : hGet s.heap p = { depth := d, ref_count := 0, alive := true })
    (hlo : ∀ q ∈ lo, 0 < depthAt s q ∧ depthAt s q < d)
    (hpost : ∀ q ∈ post, d ≤ depthAt s q ∨ depthAt s q = 0) :
    p ∉ (aize_mem_exit s).bound ∧ (hGet (aize_mem_exit s).heap p).alive = false := by
  have hdp : depthAt s p = d := by
    unfold depthAt
    rw [hp]
  have hhi : ∀ q ∈ p :: post, d ≤ depthAt s q ∨ depthAt s q = 0 := by
    intro q hq
    rcases List.mem_cons.mp hq with h1 | h1
    · rw [h1, hdp]
      exact Or.inl (le_refl d)
    · exact hpost q h1
  have hretne : ((p :: post).filter (retHere s)).head? ≠ some p := by
    intro hc
    obtain ⟨hm, hf⟩ := head_filter_mem_true hc
    have hprops := of_decide_eq_true hf
    apply hprops.1
    rw [hcur, hdp]
  have hflen : p < s.heap.length := by
    apply lt_length_of_alive
    rw [hp]
  have hfree : freeHere s p = true := by
    apply decide_eq_true
    constructor
    · rw [hcur, hdp]
    · unfold rcAt
      rw [hp]
  constructor
  · intro hmem
    rw [aize_mem_exit_bound,
      aize_mem_collect_bound s d lo (p :: post) hcur hb hlo hhi] at hmem
    rcases List.mem_append.mp hmem with h1 | h1
    · have hc := (hlo p h1).2
      omega
    · cases hR : ((p :: post).filter (retHere s)).head? with
      | none => rw [hR] at h1; simp at h1
      | some r =>
        rw [hR] at h1
        simp only [Option.toList, List.mem_singleton] at h1
        rw [← h1] at hR
        exact hretne hR
  · rw [aize_mem_exit_heap,
      aize_mem_collect_hGet_freed s d lo (p :: post) p hcur hb hlo hhi hretne
        (List.mem_cons_self p post) hfree hflen]

/-- Witness for the reclamation claim on a concrete two-object state. -/
theorem reclamation_soundness_witness :
    (1 ≤ 2 ∧ exReclaim.aize_mem_depth = 2 ∧ exReclaim.bound = [0] ++ 1 :: [] ∧
      hGet exReclaim.heap 1 = { depth := 2, ref_count := 0, alive := true } ∧
      (∀ q ∈ [0], 0 < depthAt exReclaim q ∧ depthAt exReclaim q < 2) ∧
      (∀ q ∈ ([] : List Nat), 2 ≤ depthAt exReclaim q ∨ depthAt exReclaim q = 0)) ∧
    (1 ∉ (aize_mem_exit exReclaim).bound ∧
      (hGet (aize_mem_exit exReclaim).heap 1).alive = false) :=
  ⟨by decide,
    reclamation_soundness exReclaim 2 1 [0] [] (by decide) (by decide) (by decide)
      (by decide) (by decide) (by decide)⟩

/-- Escape computation on the marked state: the promoted object ends at
the Ledger tail with depth `d - 1` and its other header fields intact. -/
theorem escape_correctness_aux (s u : MemState) (d p rc : Nat) (lo post : List Nat)
    (hub : u.bound = s.bound) (hud : u.aize_mem_depth = s.aize_mem_depth)
    (huh : u.heap = hSet s.heap p { hGet s.heap p with depth := 0 })
    (hd : 1 ≤ d) (hcur : s.aize_mem_depth = d)
    (hb : s.bound = lo ++ p :: post)
    (hp : hGet s.heap p = { depth := d, ref_count := rc, alive := true })
    (hlo : ∀ q ∈ lo, 0 < depthAt s q ∧ depthAt s q < d)
    (hpost : ∀ q ∈ post, d ≤ depthAt s q ∨ depthAt s q = 0) :
    (aize_mem_exit u).bound = lo ++ [p] ∧
    (aize_mem_exit u).bound.getLast? = some p ∧
    hGet (aize_mem_exit u).heap p = { depth := d - 1, ref_count := rc, alive := true } ∧
    (aize_mem_exit u).aize_mem_depth = d - 1 := by
  have hdp : depthAt s p = d := by
    unfold depthAt
    rw [hp]
  have hplen : p < s.heap.length := by
    apply lt_length_of_alive
    rw [hp]
  have hUgetp : hGet u.heap p = { depth := 0, ref_count := rc, alive := true } := by
    rw [huh, hGet_hSet_self _ _ _ hplen, hp]
  have hUget : ∀ q, q ≠ p → hGet u.heap q = hGet s.heap q := by
    intro q hq
    rw [huh]
    exact hGet_hSet_ne _ _ _ _ (fun he => hq he.symm)
  have hdup : depthAt u p = 0 := by
    unfold depthAt
    rw [hUgetp]
  have hdq : ∀ q, q ≠ p → depthAt u q = depthAt s q := by
    intro q hq
    unfold depthAt
    rw [hUget q hq]
  have hcurU : u.aize_mem_depth = d := hud.trans hcur
  have hbU : u.bound = lo ++ p :: post := hub.trans hb
  have hpnlo : p ∉ lo := by
    intro hc
    have := (hlo p hc).2
    omega
  have hulo : ∀ q ∈ lo, 0 < depthAt u q ∧ depthAt u q < d := by
    intro q hq
    rw [hdq q (fun he => hpnlo (he ▸ hq))]
    exact hlo q hq
  have huhi : ∀ q ∈ p :: post, d ≤ depthAt u q ∨ depthAt u q = 0 := by
    intro q hq
    by_cases hqp : q = p
    · rw [hqp, hdup]
      exact Or.inr rfl
    · rw [hdq q hqp]
      rcases List.mem_cons.mp hq with h1 | h1
      · exact absurd h1 hqp
      · exact hpost q h1
  have hT : retHere u p = true := by
    apply decide_eq_true
    constructor
    · rw [hcurU, hdup]
      omega
    · exact hdup
  have hfilter : ((p :: post).filter (retHere u)).head? = some p := by
    rw [List.filter_cons, if_pos hT]
    rfl
  have hulen : p < u.heap.length := by
    rw [huh, hSet_length]
    exact hplen
  have hbound : (aize_mem_exit u).bound = lo ++ [p] := by
    rw [aize_mem_exit_bound,
      aize_mem_collect_bound u d lo (p :: post) hcurU hbU hulo huhi, hfilter]
    rfl
  refine ⟨hbound, ?_, ?_, ?_⟩
  · rw [hbound]
    exact List.getLast?_concat lo
  · rw [aize_mem_exit_heap,
      aize_mem_collect_hGet_ret u d lo (p :: post) p hcurU hbU hulo huhi hfilter hulen,
      hUgetp]
  · rw [aize_mem_exit_depth, hud, hcur]

/-- Escape correctness of the collector logic under the spec's binding
lossless shrink: an object allocated at depth `d` (header depth still
`d`, so the mark takes effect) that is passed to `aize_mem_ret` while
the scope at depth `d` exits ends with depth `d - 1`, re-appended at
the Ledger tail, alive.  This is the intended behavior; the C shrink
realloc's missing element size can destroy the re-appended entry, see
the escape-claim code-bug demonstration below. -/
theorem escape_correctness (s : MemState) (d p rc : Nat) (lo post : List Nat)
    (hd : 1 ≤ d) (hcur : s.aize_mem_depth = d)
    (hb : s.bound = lo ++ p :: post)
    (hp : hGet s.heap p = { depth := d, ref_count := rc, alive := true })
    (hlo : ∀ q ∈ lo, 0 < depthAt s q ∧ depthAt s q < d)
    (hpost : ∀ q ∈ post, d ≤ depthAt s q ∨ depthAt s q = 0) :
    (aize_mem_ret p s).fst.bound = lo ++ [p] ∧
    (aize_mem_ret p s).fst.bound.getLast? = some p ∧
    hGet (aize_mem_ret p s).fst.heap p =
      { depth := d - 1, ref_count := rc, alive := true } ∧
    (aize_mem_ret p s).fst.aize_mem_depth = d - 1 := by
  have hdp : depthAt s p = d := by
    unfold depthAt
    rw [hp]
  have hmark : s.aize_mem_depth ≤ depthAt s p := by
    rw [hcur, hdp]
  have hretEq : (aize_mem_ret p s).fst = aize_mem_exit
      { s with heap := hSet s.heap p { hGet s.heap p with depth := 0 } } := by
    simp only [aize_mem_ret, if_pos hmark]
  rw [hretEq]
  exact escape_correctness_aux s _ d p rc lo post rfl rfl rfl hd hcur hb hp hlo hpost

/-- Concrete instance of the intended escape behavior on a two-object
state. -/
theorem escape_correctness_witness :
    (1 ≤ 2 ∧ exEscape.aize_mem_depth = 2 ∧ exEscape.bound = [0] ++ 1 :: [] ∧
      hGet exEscape.heap 1 = { depth := 2, ref_count := 0, alive := true } ∧
      (∀ q ∈ [0], 0 < depthAt exEscape q ∧ depthAt exEscape q < 2) ∧
      (∀ q ∈ ([] : List Nat), 2 ≤ depthAt exEscape q ∨ depthAt exEscape q = 0)) ∧
    ((aize_mem_ret 1 exEscape).fst.bound = [0] ++ [1] ∧
      (aize_mem_ret 1 exEscape).fst.bound.getLast? = some 1 ∧
      hGet (aize_mem_ret 1 exEscape).fst.heap 1 =
        { depth := 1, ref_count := 0, alive := true } ∧
      (aize_mem_ret 1 exEscape).fst.aize_mem_depth = 1) :=
  ⟨by decide,
    escape_correctness exEscape 2 1 0 [0] [] (by decide) (by decide) (by decide)
      (by decide) (by decide) (by decide)⟩

/-- Counterexample for claim C3 as stated: a floating object (depth 2,
reference count 1) at the exit of depth 2 survives un-freed, but its
entry does not remain in the Ledger - the truncation step removes it. -/
theorem floating_remains_cex :
    hGet exFloat.heap 0 = { depth := 2, ref_count := 1, alive := true } ∧
    exFloat.aize_mem_depth = 2 ∧ exFloat.bound = [0] ∧
    (hGet (aize_mem_exit exFloat).heap 0).alive = true ∧
    0 ∉ (aize_mem_exit exFloat).bound := by decide

/-- Claim C3 as amended: an object of the exiting scope with nonzero
reference count is left allocated (never freed) by the collector, but
its Ledger entry is truncated together with the rest of the exiting
scope's entries, so it persists in memory while no longer reachable via
the Ledger. -/
theorem floating_survives_truncated (s : MemState) (d p rc : Nat) (lo post : List Nat)
    (hd : 1 ≤ d) (hcur : s.aize_mem_depth = d)
    (hb : s.bound = lo ++ p :: post)
    (hp : hGet s.heap p = { depth := d, ref_count := rc, alive := true })
    (hrc : rc ≠ 0)
    (hlo : ∀ q ∈ lo, 0 < depthAt s q ∧ depthAt s q < d)
    (hpost : ∀ q ∈ post, d ≤ depthAt s q ∨ depthAt s q = 0) :
    (hGet (aize_mem_exit s).heap p).alive = true ∧ p ∉ (aize_mem_exit s).bound := by
  have hdp : depthAt s p = d := by
    unfold depthAt
    rw [hp]
  have hhi : ∀ q ∈ p :: post, d ≤ depthAt s q ∨ depthAt s q = 0 := by
    intro q hq
    rcases List.mem_cons.mp hq with h1 | h1
    · rw [h1, hdp]
      exact Or.inl (le_refl d)
    · exact hpost q h1
  have hretne : ((p :: post).filter (retHere s)).head? ≠ some p := by
    intro hc
    obtain ⟨hm, hf⟩ := head_filter_mem_true hc
    have hprops := of_decide_eq_true hf
    apply hprops.1
    rw [hcur, hdp]
  have hnofree : ¬ (p ∈ p :: post ∧ freeHere s p = true) := by
    intro hc
    have hprops := of_decide_eq_true hc.2
    apply hrc
    have h0 : rcAt s p = 0 := hprops.2
    unfold rcAt at h0
    rw [hp] at h0
    exact h0
  constructor
  · rw [aize_mem_exit_heap,
      aize_mem_collect_hGet_other s d lo (p :: post) p hcur hb hlo hhi hretne hnofree,
      hp]
  · intro hmem
    rw [aize_mem_exit_bound,
      aize_mem_collect_bound s d lo (p :: post) hcur hb hlo hhi] at hmem
    rcases List.mem_append.mp hmem with h1 | h1
    · have hc := (hlo p h1).2
      omega
    · cases hR : ((p :: post).filter (retHere s)).head? with
      | none => rw [hR] at h1; simp at h1
      | some r =>
        rw [hR] at h1
        simp only [Option.toList, List.mem_singleton] at h1
        rw [← h1] at hR
        exact hretne hR

/-- Witness for the amended floating claim on a concrete state. -/
theorem floating_survives_truncated_witness :
    (1 ≤ 2 ∧ exFloat.aize_mem_depth = 2 ∧ exFloat.bound = [] ++ 0 :: [] ∧
      hGet exFloat.heap 0 = { depth := 2, ref_count := 1, alive := true } ∧
      (1 : Nat) ≠ 0 ∧
      (∀ q ∈ ([] : List Nat), 0 < depthAt exFloat q ∧ depthAt exFloat q < 2) ∧
      (∀ q ∈ ([] : List Nat), 2 ≤ depthAt exFloat q ∨ depthAt exFloat q = 0)) ∧
    ((hGet (aize_mem_exit exFloat).heap 0).alive = true ∧
      0 ∉ (aize_mem_exit exFloat).bound) :=
  ⟨by decide,
    floating_survives_truncated exFloat 2 0 1 [] [] (by decide) (by decide) (by decide)
      (by decide) (by decide) (by decide) (by decide)⟩

/-- Single promotion per collection pass, under the spec's binding
lossless shrink: when several entries of the scanned tail carry the
depth-0 sentinel, only the earliest-allocated one is re-appended (with
depth `d - 1`); every other sentinel entry is removed from the Ledger
without being freed.  This is the intended behavior; the C shrink
realloc's missing element size can destroy the re-append, see the
promotion-claim code-bug demonstration below. -/
theorem single_promotion (s : MemState) (d z0 : Nat) (lo hi zrest : List Nat)
    (hd : 1 ≤ d) (hcur : s.aize_mem_depth = d)
    (hb : s.bound = lo ++ hi)
    (hlo : ∀ q ∈ lo, 0 < depthAt s q ∧ depthAt s q < d)
    (hhi : ∀ q ∈ hi, d ≤ depthAt s q ∨ depthAt s q = 0)
    (hz : hi.filter (fun q => decide (depthAt s q = 0)) = z0 :: zrest)
    (hz0len : z0 < s.heap.length) :
    (aize_mem_exit s).bound = lo ++ [z0] ∧
    (hGet (aize_mem_exit s).heap z0).depth = d - 1 ∧
    (∀ q ∈ hi, depthAt s q = 0 → q ≠ z0 →
      q ∉ (aize_mem_exit s).bound ∧
      (hGet (aize_mem_exit s).heap q).alive = (hGet s.heap q).alive) := by
  have hfil : hi.filter (retHere s) = hi.filter (fun q => decide (depthAt s q = 0)) := by
    apply List.filter_congr
    intro q hq
    unfold retHere
    by_cases hq0 : depthAt s q = 0
    · have hl : ¬ s.aize_mem_depth ≤ depthAt s q ∧ depthAt s q = 0 := by
        constructor
        · rw [hcur, hq0]
          omega
        · exact hq0
      rw [decide_eq_true hl, decide_eq_true hq0]
    · have hl : ¬ (¬ s.aize_mem_depth ≤ depthAt s q ∧ depthAt s q = 0) :=
        fun hc => hq0 hc.2
      rw [decide_eq_false hl, decide_eq_false hq0]
  have hhead : (hi.filter (retHere s)).head? = some z0 := by
    rw [hfil, hz]
    rfl
  have hbound : (aize_mem_exit s).bound = lo ++ [z0] := by
    rw [aize_mem_exit_bound, aize_mem_collect_bound s d lo hi hcur hb hlo hhi, hhead]
    rfl
  refine ⟨hbound, ?_, ?_⟩
  · rw [aize_mem_exit_heap,
      aize_mem_collect_hGet_ret s d lo hi z0 hcur hb hlo hhi hhead hz0len]
  · intro q hq hq0 hqz
    constructor
    · intro hmem
      rw [hbound] at hmem
      rcases List.mem_append.mp hmem with h1 | h1
      · have hc := (hlo q h1).1
        omega
      · exact hqz (by simpa using h1)
    · rw [aize_mem_exit_heap,
        aize_mem_collect_hGet_other s d lo hi q hcur hb hlo hhi ?_ ?_]
      · rw [hhead]
        intro hc
        simp only [Option.some.injEq] at hc
        exact hqz hc.symm
      · intro hc
        have hprops := of_decide_eq_true hc.2
        have := hprops.1
        rw [hcur, hq0] at this
        omega

/-- Concrete instance of the intended single-promotion behavior on a
state with two sentinel entries. -/
theorem single_promotion_witness :
    (1 ≤ 2 ∧ exTwoSentinels.aize_mem_depth = 2 ∧
      exTwoSentinels.bound = [0] ++ [1, 2, 3] ∧
      (∀ q ∈ [0], 0 < depthAt exTwoSentinels q ∧ depthAt exTwoSentinels q < 2) ∧
      (∀ q ∈ [1, 2, 3], 2 ≤ depthAt exTwoSentinels q ∨ depthAt exTwoSentinels q = 0) ∧
      [1, 2, 3].filter (fun q => decide (depthAt exTwoSentinels q = 0)) = 1 :: [2] ∧
      1 < exTwoSentinels.heap.length) ∧
    ((aize_mem_exit exTwoSentinels).bound = [0] ++ [1] ∧
      (hGet (aize_mem_exit exTwoSentinels).heap 1).depth = 1 ∧
      (∀ q ∈ [1, 2, 3], depthAt exTwoSentinels q = 0 → q ≠ 1 →
        q ∉ (aize_mem_exit exTwoSentinels).bound ∧
        (hGet (aize_mem_exit exTwoSentinels).heap q).alive =
          (hGet exTwoSentinels.heap q).alive)) :=
  ⟨by decide,
    single_promotion exTwoSentinels 2 1 [0] [1, 2, 3] [2] (by decide) (by decide)
      (by decide) (by decide) (by decide) (by decide) (by decide)⟩

/-- Counterexample for claim C4 as stated: when the system allocator
fails, `aize_mem_malloc` does not raise a deliberate abort - its failure
mode is the unchecked store `mem->depth = aize_mem_depth` through the
null result. -/
theorem malloc_failure_no_abort_cex :
    aize_mem_malloc false 0 (aize_mem_init initialMemState) ≠ AllocResult.abortRaised ∧
    aize_mem_malloc false 0 (aize_mem_init initialMemState) = AllocResult.nullWrite := by
  decide

/-- Claim C4 as amended: on allocation failure `aize_mem_malloc` crashes
by writing the depth stamp through the null pointer (undefined behavior,
not a deliberate abort) - it never continues silently and never hands a
null object back to the caller; on success it returns a live object
stamped with the current depth and registered in the Ledger. -/
theorem malloc_failure_null_write (rc0 : Nat) (s : MemState) :
    aize_mem_malloc false rc0 s = AllocResult.nullWrite ∧
    (∃ s2 p, aize_mem_malloc true rc0 s = AllocResult.returned s2 p ∧
      (hGet s2.heap p).alive = true ∧ p ∈ s2.bound ∧
      (hGet s2.heap p).depth = s.aize_mem_depth) := by
  constructor
  · rfl
  · refine ⟨aize_mem_add_mem s.heap.length
      { s with
        heap := s.heap ++ [{ depth := s.aize_mem_depth, ref_count := rc0, alive := true }] },
      s.heap.length, rfl, ?_, ?_, ?_⟩
    · rw [aize_mem_add_mem_heap]
      show (hGet (s.heap ++
        [{ depth := s.aize_mem_depth, ref_count := rc0, alive := true }])
        s.heap.length).alive = true
      rw [hGet_append_len]
    · rw [aize_mem_add_mem_bound]
      exact List.mem_append.mpr (Or.inr (List.mem_singleton.mpr rfl))
    · rw [aize_mem_add_mem_heap]
      show (hGet (s.heap ++
        [{ depth := s.aize_mem_depth, ref_count := rc0, alive := true }])
        s.heap.length).depth = s.aize_mem_depth
      rw [hGet_append_len]

/-- Claim C5: on a well-formed list (the backing allocation covers all
`len` slots and they are initialized), `AizeList_get` returns the stored
reference for every index below `len` and the `{NULL, NULL}` reference
for every other index, never faulting. -/
theorem list_get_in_bounds_or_null (refSize : Nat) (l : AizeList) (i : Nat)
    (hwf1 : l.len * refSize ≤ l.arrBytes) (hwf2 : l.len ≤ l.arr.length) :
    (i < l.len → AizeList_get refSize l i = some (l.arr.getD i nullObjectRef)) ∧
    (l.len ≤ i → AizeList_get refSize l i = some nullObjectRef) := by
  constructor
  · intro hi
    unfold AizeList_get
    rw [if_pos hi, if_pos]
    constructor
    · calc (i + 1) * refSize ≤ l.len * refSize :=
            Nat.mul_le_mul_right refSize (Nat.succ_le_of_lt hi)
        _ ≤ l.arrBytes := hwf1
    · exact lt_of_lt_of_le hi hwf2
  · intro hi
    unfold AizeList_get
    rw [if_neg (by omega)]

/-- Witness for the list-access claim on a concrete well-formed list,
exercising both the in-bounds and the out-of-bounds branch. -/
theorem list_get_in_bounds_or_null_witness :
    (exList.len * 16 ≤ exList.arrBytes ∧ exList.len ≤ exList.arr.length) ∧
    ((1 < exList.len → AizeList_get 16 exList 1 = some (exList.arr.getD 1 nullObjectRef)) ∧
      (exList.len ≤ 1 → AizeList_get 16 exList 1 = some nullObjectRef)) ∧
    ((5 < exList.len → AizeList_get 16 exList 5 = some (exList.arr.getD 5 nullObjectRef)) ∧
      (exList.len ≤ 5 → AizeList_get 16 exList 5 = some nullObjectRef)) :=
  ⟨by decide,
    list_get_in_bounds_or_null 16 exList 1 (by decide) (by decide),
    list_get_in_bounds_or_null 16 exList 5 (by decide) (by decide)⟩

/-- Claim C7 evaluated at the failing input: sixteen appends on a fresh
list (element size 16, two 8-byte pointers) succeed with every stored
reference retrievable, but the seventeenth append triggers the growth
realloc of `capacity * 2 = 32` bytes - the element size is missing from
the byte count - after which the store `arr[16]` lands far outside the
32-byte allocation, a heap overflow. -/
theorem list_append_growth_overflow :
    (AizeList_appendAll 16 (AizeList_new 16) (List.replicate 16 sampleRef)).map
      (fun l => (l.len, l.capacity, AizeList_get 16 l 3)) =
      some (16, 16, some sampleRef) ∧
    AizeList_appendAll 16 (AizeList_new 16) (List.replicate 17 sampleRef) = none := by
  decide

/-- Claim C8: `aize_mem_ret` is exactly the spec's `mark_return`
followed by `aize_mem_exit`, and it already decrements the Depth
Counter - after it returns, the scope has exited, so a separate
`aize_mem_exit` for the same scope must not be called. -/
theorem ret_marks_and_exits (p : Nat) (s : MemState) :
    aize_mem_ret p s = (aize_mem_exit (aize_mem_mark_return p s), p) ∧
    (aize_mem_ret p s).fst.aize_mem_depth = s.aize_mem_depth - 1 := by
  constructor
  · rfl
  · show (aize_mem_exit (aize_mem_mark_return p s)).aize_mem_depth = s.aize_mem_depth - 1
    rw [aize_mem_exit_depth]
    have hmd : (aize_mem_mark_return p s).aize_mem_depth = s.aize_mem_depth := by
      unfold aize_mem_mark_return
      split <;> rfl
    rw [hmd]

/-- Ledger ordering invariant under the spec's binding lossless shrink:
in every state reachable under the balanced scope discipline, the
Ledger splits into a prefix of enclosing-scope entries (depths strictly
between 0 and the current depth) and a contiguous suffix whose entries
have depth at least the current depth or carry the 0 sentinel; moreover
entry depths are non-decreasing along the Ledger (entries are appended
in order and never reordered).  This is the intended behavior; the C
shrink realloc's missing element size destroys Ledger entries on large
scopes, see the invariant-claim code-bug demonstration below. -/
theorem ledger_suffix_invariant (s : MemState) (h : Reach s) :
    ∃ lo hi, s.bound = lo ++ hi ∧
      (∀ q ∈ lo, 0 < depthAt s q ∧ depthAt s q < s.aize_mem_depth) ∧
      (∀ q ∈ hi, s.aize_mem_depth ≤ depthAt s q ∨ depthAt s q = 0) ∧
      s.bound.Pairwise (fun p q => depthAt s p ≤ depthAt s q) := by
  obtain ⟨h1, h2, h3⟩ := reach_inv s h
  obtain ⟨lo, hi, heq, hlo, hhi⟩ :=
    pairwise_split_at (depthAt s) s.aize_mem_depth s.bound h3
  refine ⟨lo, hi, heq, ?_, ?_, h3⟩
  · intro q hq
    have hm : q ∈ s.bound := by
      rw [heq]
      exact List.mem_append.mpr (Or.inl hq)
    exact ⟨(h2 q hm).2.1, hlo q hq⟩
  · intro q hq
    exact Or.inl (hhi q hq)

/-- Concrete instance of the intended Ledger invariant at a reachable
state (initialize, enter a scope, allocate once). -/
theorem ledger_suffix_invariant_witness :
    ∃ lo hi, exReached.bound = lo ++ hi ∧
      (∀ q ∈ lo, 0 < depthAt exReached q ∧ depthAt exReached q < exReached.aize_mem_depth) ∧
      (∀ q ∈ hi,
        exReached.aize_mem_depth ≤ depthAt exReached q ∨ depthAt exReached q = 0) ∧
      exReached.bound.Pairwise (fun p q => depthAt exReached p ≤ depthAt exReached q) := by
  have h2 : aize_mem_malloc true 0 (aize_mem_enter (aize_mem_init initialMemState)) =
      AllocResult.returned exReached 0 := by decide
  exact ledger_suffix_invariant exReached (Reach.alloc (Reach.enter Reach.start) h2)

/-- Claim C10: the Depth Counter is statically initialized to 1 and
`aize_mem_init` does not modify it; in every reachable state the counter
stays at least 1, so every allocation stamps its object with a depth of
at least 1 - the value 0 never occurs as a real allocation depth and is
unambiguous as the promotion sentinel. -/
theorem depth_counter_one_based (s s2 : MemState) (rc0 p : Nat) (h : Reach s)
    (ha : aize_mem_malloc true rc0 s = AllocResult.returned s2 p) :
    initialMemState.aize_mem_depth = 1 ∧
    (∀ t : MemState, (aize_mem_init t).aize_mem_depth = t.aize_mem_depth) ∧
    1 ≤ s.aize_mem_depth ∧
    (hGet s2.heap p).depth = s.aize_mem_depth ∧ 1 ≤ (hGet s2.heap p).depth := by
  have h1 := (reach_inv s h).1
  unfold aize_mem_malloc at ha
  rw [if_pos rfl] at ha
  injection ha with ha1 ha2
  subst ha2
  rw [← ha1]
  have hstamp : (hGet (aize_mem_add_mem s.heap.length
      { s with
        heap := s.heap ++ [{ depth := s.aize_mem_depth, ref_count := rc0, alive := true }]
      }).heap s.heap.length).depth = s.aize_mem_depth := by
    rw [aize_mem_add_mem_heap]
    show (hGet (s.heap ++
      [{ depth := s.aize_mem_depth, ref_count := rc0, alive := true }])
      s.heap.length).depth = s.aize_mem_depth
    rw [hGet_append_len]
  refine ⟨rfl, fun t => rfl, h1, hstamp, ?_⟩
  rw [hstamp]
  exact h1

/-- Witness for the depth-counter claim at the first allocation after
initialization. -/
theorem depth_counter_one_based_witness :
    Reach (aize_mem_init initialMemState) ∧
    aize_mem_malloc true 0 (aize_mem_init initialMemState) =
      AllocResult.returned exFirstAlloc 0 ∧
    (initialMemState.aize_mem_depth = 1 ∧
      (∀ t : MemState, (aize_mem_init t).aize_mem_depth = t.aize_mem_depth) ∧
      1 ≤ (aize_mem_init initialMemState).aize_mem_depth ∧
      (hGet exFirstAlloc.heap 0).depth = (aize_mem_init initialMemState).aize_mem_depth ∧
      1 ≤ (hGet exFirstAlloc.heap 0).depth) :=
  ⟨Reach.start, by decide,
    depth_counter_one_based (aize_mem_init initialMemState) exFirstAlloc 0 0 Reach.start
      (by decide)⟩

set_option maxRecDepth 100000 in
set_option maxHeartbeats 2000000 in
/-- Claim C6 evaluated at the failing input: after 100 base-scope
registrations, a nested scope of 157 registrations, and the nested
scope's pop, the byte-level Ledger ends with `len = 100` but a
256-byte block holding only 32 readable slots - the shrink realloc
`realloc(arr, capacity / SHRINK_FACTOR)` omitted the element size and
discarded entries 32..99, live base-scope objects, so the Ledger no
longer lists the enclosing scope's allocations and the reachable-state
invariant fails on the real array. -/
theorem ledger_shrink_loses_entries :
    exShrinkLedger.map (fun b => (b.len, b.capacity, b.arrBytes, b.arr.length)) =
      some (100, 256, 256, 32) ∧
    exShrinkLedger.map (fun b => decide (b.arr.length < b.len)) = some true := by
  decide

set_option maxRecDepth 100000 in
set_option maxHeartbeats 2000000 in
/-- Claim C2 evaluated at the failing input: in the same shrink-hit
state, the re-append of a promoted object that escape completion
requires is the store `arr[100]` at byte 800 of the 256-byte block - a
heap overflow - so the marked object does not end up retrievable
through the Ledger. -/
theorem escape_reappend_overflow :
    exShrinkLedger.map (fun b => aize_mem_add_mem_bytes 999 b) = some none := by
  decide

set_option maxRecDepth 100000 in
set_option maxHeartbeats 2000000 in
/-- Claim C9 evaluated at the failing input: with 40 base-scope
registrations and a nested scope of 217 registrations, the exit's pop
shrinks the block to 32 slots under 40 surviving entries, and the
re-append of the earliest sentinel is the store `arr[40]` at byte 320
of the 256-byte block - a heap overflow - so the promoted-entry
bookkeeping the claim describes is not delivered by the real array. -/
theorem promote_reappend_overflow :
    (aize_mem_add_all_bytes (List.range 257) aize_mem_init_bytes).map
      (fun b => aize_mem_add_mem_bytes 7 (aize_mem_pop_mem_bytes 217 b)) = some none := by
  decide
